import Mathlib

set_option maxHeartbeats 1000000
set_option maxRecDepth 4000

namespace SocialSentiment

/-!
Shallow embedding of the job-processing core and API client of the
social-sentiment application.  The definitions below are translated from
src/lib/queue.ts, src/lib/meta.ts and src/lib/workers/analyze-sentiment.ts.
Timestamps are modelled as integers (milliseconds), the persistent Job table
as a list of Job records, and external collaborators (database row ids, the
AEAD cipher of the node crypto library, the HTTP fetch responses, the
sentiment engine) as explicit parameters.
-/

/-! ### Job store (src/lib/queue.ts) -/

/-- Job status enum, from the Prisma JobStatus enum used by queue.ts. -/
inductive JobStatus where
  | QUEUED
  | RUNNING
  | COMPLETED
  | FAILED
  deriving DecidableEq, Repr

/-- One row of the Job table.  The job type is kept as the runtime string
(the TypeScript enum is erased at runtime); payload is opaque here. -/
structure Job where
  id : Nat
  kind : String
  payload : String
  status : JobStatus
  attempts : Nat
  maxAttempts : Nat
  scheduledAt : Int
  startedAt : Option Int
  completedAt : Option Int
  lastError : Option String
  deriving DecidableEq, Repr

/-- calculateBackoffDelay from queue.ts: min(1000 * 2^attempts, 300000). -/
def calculateBackoffDelay (attempts : Nat) : Nat :=
  min (1000 * 2 ^ attempts) 300000

/-- Fresh id generation stands in for the database's unique id generator:
one more than the largest id present. -/
def freshId (s : List Job) : Nat :=
  s.foldr (fun j m => max (j.id + 1) m) 0

/-- JobQueue.enqueue: insert a new QUEUED job with attempts = 0 and
scheduledAt defaulting to now. -/
def enqueue (s : List Job) (kind : String) (payload : String)
    (maxAttempts : Nat) (scheduledAt : Option Int) (now : Int) : List Job :=
  s ++ [{ id := freshId s, kind := kind, payload := payload,
          status := JobStatus.QUEUED, attempts := 0, maxAttempts := maxAttempts,
          scheduledAt := scheduledAt.getD now, startedAt := none,
          completedAt := none, lastError := none }]

/-- The findFirst where-clause of getNextJob: status QUEUED,
scheduledAt ≤ now, attempts < maxAttempts. -/
def eligible (now : Int) (j : Job) : Bool :=
  decide (j.status = JobStatus.QUEUED ∧ j.scheduledAt ≤ now ∧
          j.attempts < j.maxAttempts)

/-- orderBy scheduledAt asc: earliest scheduledAt wins, first in table order
on ties. -/
def pickEarliest : List Job → Option Job
  | [] => none
  | j :: rest =>
    match pickEarliest rest with
    | none => some j
    | some k => if k.scheduledAt < j.scheduledAt then some k else some j

/-- The read phase of getNextJob: prisma.job.findFirst with the eligibility
where-clause, ordered by scheduledAt ascending. -/
def findNextJob (now : Int) (s : List Job) : Option Job :=
  pickEarliest (s.filter (eligible now))

/-- The write phase of getNextJob: prisma.job.update on the id alone, setting
status RUNNING, stamping startedAt and incrementing attempts. -/
def markRunning (s : List Job) (i : Nat) (now : Int) : List Job :=
  s.map (fun j => if j.id = i then
    { j with status := JobStatus.RUNNING, startedAt := some now,
             attempts := j.attempts + 1 } else j)

/-- JobQueue.getNextJob: findFirst then a separate update; the returned job
value is the row as read, before the update. -/
def getNextJob (now : Int) (s : List Job) : Option Job × List Job :=
  match findNextJob now s with
  | none => (none, s)
  | some j => (some j, markRunning s j.id now)

/-- JobQueue.completeJob: unconditional update by id to COMPLETED, stamping
completedAt. -/
def completeJob (s : List Job) (i : Nat) (now : Int) : List Job :=
  s.map (fun j => if j.id = i then
    { j with status := JobStatus.COMPLETED, completedAt := some now } else j)

/-- prisma.job.findUnique by id. -/
def findJob (s : List Job) (i : Nat) : Option Job :=
  s.find? (fun j => decide (j.id = i))

/-- JobQueue.failJob: if the job is absent, do nothing; otherwise requeue
with backoff while attempts < maxAttempts, else mark FAILED.  A prisma
update field set to undefined (scheduledAt in the FAILED branch) leaves the
column unchanged. -/
def failJob (s : List Job) (i : Nat) (e : String) (now : Int) : List Job :=
  match findJob s i with
  | none => s
  | some j =>
    let shouldRetry := j.attempts < j.maxAttempts
    s.map (fun j2 => if j2.id = i then
      { j2 with
          status := if shouldRetry then JobStatus.QUEUED else JobStatus.FAILED,
          lastError := some e,
          scheduledAt := if shouldRetry then
              now + (calculateBackoffDelay j.attempts : Int)
            else j2.scheduledAt,
          startedAt := none }
      else j2)

/-- The store operations reachable through the JobQueue public surface. -/
inductive QueueOp where
  | enq (kind payload : String) (maxAttempts : Nat) (scheduledAt : Option Int)
      (now : Int)
  | claim (now : Int)
  | complete (i : Nat) (now : Int)
  | fail (i : Nat) (e : String) (now : Int)
  deriving DecidableEq, Repr

/-- One store operation. -/
def step (s : List Job) : QueueOp → List Job
  | QueueOp.enq k p m sc now => enqueue s k p m sc now
  | QueueOp.claim now => (getNextJob now s).2
  | QueueOp.complete i now => completeJob s i now
  | QueueOp.fail i e now => failJob s i e now

/-- A sequence of store operations. -/
def runOps (s : List Job) (ops : List QueueOp) : List Job :=
  ops.foldl step s

/-- All job ids in the table are distinct (database primary key). -/
def NoDupIds (s : List Job) : Prop := (s.map Job.id).Nodup

/-- The store invariant: distinct ids, attempts bounded by maxAttempts, and
FAILED only with the attempt budget exhausted. -/
def InvStore (s : List Job) : Prop :=
  NoDupIds s ∧ ∀ j ∈ s, j.attempts ≤ j.maxAttempts ∧
    (j.status = JobStatus.FAILED → j.attempts = j.maxAttempts)

/-- Some row with the given id is terminal: attempt budget exhausted and not
QUEUED.  Once true it stays true under every store operation. -/
def TermAt (i : Nat) (s : List Job) : Prop :=
  ∃ j ∈ s, j.id = i ∧ j.maxAttempts ≤ j.attempts ∧ j.status ≠ JobStatus.QUEUED

/-- Recognizer for the fail operation. -/
def isFailOp : QueueOp → Bool
  | QueueOp.fail _ _ _ => true
  | _ => false

/-! ### Scheduler tick (JobQueue.processNextJob) -/

/-- The five job kinds handled by the switch in processNextJob. -/
def knownKinds : List String :=
  ["FETCH_POSTS", "FETCH_COMMENTS", "ANALYZE_SENTIMENT", "REFRESH_TOKENS",
   "CLEANUP_DATA"]

/-- The message prefixes the per-kind wrappers prepend before rethrowing. -/
def wrapMsgFor (kind : String) (msg : String) : String :=
  if kind = "FETCH_POSTS" then "Failed to fetch posts: " ++ msg
  else if kind = "FETCH_COMMENTS" then "Failed to fetch comments: " ++ msg
  else if kind = "ANALYZE_SENTIMENT" then "Failed to analyze sentiment: " ++ msg
  else if kind = "REFRESH_TOKENS" then "Failed to refresh tokens: " ++ msg
  else "Failed to cleanup data: " ++ msg

/-- Outcome of running one job handler (an external effect). -/
inductive HandlerOutcome where
  | ok
  | err (msg : String)

/-- An error reaching the catch block of processNextJob: the per-kind
wrappers attach the jobId property; the default branch of the switch throws
a plain Error without it. -/
inductive TickError where
  | tagged (jobId : Nat) (msg : String)
  | untagged (msg : String)

/-- The switch statement of processNextJob: known kinds run their handler
through a wrapper that tags errors with the job id; an unknown kind throws
an untagged Unknown-job-type error. -/
def dispatch (handlers : String → String → HandlerOutcome) (kind : String)
    (jobId : Nat) (payload : String) : Option TickError :=
  if kind ∈ knownKinds then
    match handlers kind payload with
    | HandlerOutcome.ok => none
    | HandlerOutcome.err m => some (TickError.tagged jobId (wrapMsgFor kind m))
  else some (TickError.untagged ("Unknown job type: " ++ kind))

/-- JobQueue.processNextJob: claim, dispatch, then completeJob on success;
the catch block calls failJob only when the error carries a jobId property,
and otherwise leaves the store as the dispatch left it. -/
def processNextJob (handlers : String → String → HandlerOutcome) (now : Int)
    (s : List Job) : List Job :=
  match getNextJob now s with
  | (none, s1) => s1
  | (some job, s1) =>
    match dispatch handlers job.kind job.id job.payload with
    | none => completeJob s1 job.id now
    | some (TickError.tagged i m) => failJob s1 i m now
    | some (TickError.untagged _) => s1

/-! ### Two schedulers interleaving getNextJob (for the atomicity claim)

getNextJob awaits findFirst and then, in a separate round trip, awaits the
update; nothing makes the pair atomic and the update is conditioned on the
id alone.  The interleaving below has schedulers A and B both run the read
phase before either runs the write phase. -/

/-- Both schedulers read, then both write; each returns the job its own
findFirst produced, exactly as getNextJob returns the row as read. -/
def interleavedClaim (now : Int) (s : List Job) :
    Option Job × Option Job × List Job :=
  let a := findNextJob now s
  let b := findNextJob now s
  let s1 := match a with
    | some j => markRunning s j.id now
    | none => s
  let s2 := match b with
    | some j => markRunning s1 j.id now
    | none => s1
  (a, b, s2)

/-- A sample job row used in concrete evaluations. -/
def mkJob (i : Nat) (kind : String) (st : JobStatus) (att maxAtt : Nat)
    (sched : Int) : Job :=
  { id := i, kind := kind, payload := "", status := st, attempts := att,
    maxAttempts := maxAtt, scheduledAt := sched, startedAt := none,
    completedAt := none, lastError := none }

/-! ### Paginated fetching (MetaGraphAPI.getPagePosts / getPostComments)

The do/while loop issues one request per iteration, appends response.data,
reads response.paging.next into the local nextUrl, and continues while
nextUrl is present and the accumulated count is below the hard-coded cap.
The request issued each iteration is rebuilt from the same endpoint and the
same params object; nextUrl never feeds back into the request.  The upstream
is modelled as an oracle giving the response to the k-th request; fuel bounds
the iterations we unroll (none means the loop was still running). -/

/-- One Graph API page response: items plus the optional next-cursor link. -/
structure PageResponse (α : Type) where
  data : List α
  next : Option String
  deriving DecidableEq, Repr

/-- An outgoing HTTP request: endpoint and query parameters. -/
structure ApiRequest where
  endpoint : String
  params : List (String × String)
  deriving DecidableEq, Repr

/-- The request getPagePosts builds every iteration (without since/until). -/
def postsRequest (pageId : String) (limit : Nat) : ApiRequest :=
  { endpoint := "/" ++ pageId ++ "/posts",
    params := [("fields",
      "id,message,created_time,permalink_url,likes.summary(true),comments.summary(true)"),
      ("limit", toString limit)] }

/-- The request getPostComments builds every iteration. -/
def commentsRequest (postId : String) (limit : Nat) : ApiRequest :=
  { endpoint := "/" ++ postId ++ "/comments",
    params := [("fields", "id,from,message,created_time,like_count,parent"),
      ("filter", "stream"), ("limit", toString limit)] }

/-- The do/while body shared by the paginated helpers: request, accumulate,
continue while a next cursor exists and the count is below cap.  Also traces
every request issued. -/
def fetchLoop {α : Type} (cap : Nat) (req : ApiRequest)
    (responses : Nat → PageResponse α) :
    Nat → Nat → List α → List ApiRequest → Option (List α × List ApiRequest)
  | 0, _, _, _ => none
  | fuel + 1, k, acc, reqs =>
    let r := responses k
    let acc2 := acc ++ r.data
    let reqs2 := reqs ++ [req]
    match r.next with
    | none => some (acc2, reqs2)
    | some _ =>
      if acc2.length < cap then fetchLoop cap req responses fuel (k + 1) acc2 reqs2
      else some (acc2, reqs2)

/-- MetaGraphAPI.getPagePosts: cap 1000, request rebuilt identically each
iteration. -/
def getPagePosts {α : Type} (pageId : String) (limit : Nat)
    (responses : Nat → PageResponse α) (fuel : Nat) :
    Option (List α × List ApiRequest) :=
  fetchLoop 1000 (postsRequest pageId limit) responses fuel 0 [] []

/-- MetaGraphAPI.getPostComments: cap 10000, request rebuilt identically each
iteration. -/
def getPostComments {α : Type} (postId : String) (limit : Nat)
    (responses : Nat → PageResponse α) (fuel : Nat) :
    Option (List α × List ApiRequest) :=
  fetchLoop 10000 (commentsRequest postId limit) responses fuel 0 [] []

/-! ### makeRequest retry loop (MetaGraphAPI.makeRequest)

for (attempt = 0; attempt < maxRetries; attempt++): fetch; on 429 sleep and
continue; on a non-ok response throw Meta-API-Error inside the try, which the
surrounding catch rethrows only on the final attempt; a network failure is
treated the same way; after the loop throw Max-retries-exceeded.  The n-th
fetch outcome is an oracle; the second component counts fetches issued. -/

/-- Outcome of one fetch call. -/
inductive FetchOutcome (α : Type) where
  | success (value : α)
  | rateLimited
  | httpError (status : Nat) (errMsg : String)
  | networkError (msg : String)

/-- The retry loop, by remaining iterations; attempt is the index of the
next fetch.  Returns the result and the total number of fetches issued. -/
def makeRequestAux {α : Type} (responses : Nat → FetchOutcome α) :
    Nat → Nat → Except String α × Nat
  | attempt, 0 => (Except.error "Max retries exceeded", attempt)
  | attempt, remaining + 1 =>
    match responses attempt with
    | FetchOutcome.success v => (Except.ok v, attempt + 1)
    | FetchOutcome.rateLimited => makeRequestAux responses (attempt + 1) remaining
    | FetchOutcome.httpError _ m =>
      if remaining = 0 then (Except.error ("Meta API Error: " ++ m), attempt + 1)
      else makeRequestAux responses (attempt + 1) remaining
    | FetchOutcome.networkError m =>
      if remaining = 0 then (Except.error m, attempt + 1)
      else makeRequestAux responses (attempt + 1) remaining

/-- MetaGraphAPI.makeRequest with its default maxRetries = 3. -/
def makeRequest {α : Type} (responses : Nat → FetchOutcome α)
    (maxRetries : Nat) : Except String α × Nat :=
  makeRequestAux responses 0 maxRetries

/-! ### Token encryption (TokenEncryption.encrypt / decrypt)

encrypt draws 16 random bytes into the local iv, but builds the cipher with
crypto.createCipher(algorithm, key): that deprecated constructor derives both
the effective key and the effective IV from the key material alone
(EVP_BytesToKey, no salt), so the cipher never sees the random bytes.  The
node AEAD primitive itself is external; it is modelled as an abstract cipher
record whose ivFromKey field is the IV the createCipher construction derives
from the key.  Byte strings are lists of Fin 256; the hex codec and the
colon-separated envelope are translated directly from the source. -/

/-- Lowercase hex digit for a value below 16 (never a colon). -/
def hexDigit (n : Nat) : Char :=
  if n = 0 then '0' else if n = 1 then '1' else if n = 2 then '2'
  else if n = 3 then '3' else if n = 4 then '4' else if n = 5 then '5'
  else if n = 6 then '6' else if n = 7 then '7' else if n = 8 then '8'
  else if n = 9 then '9' else if n = 10 then 'a' else if n = 11 then 'b'
  else if n = 12 then 'c' else if n = 13 then 'd' else if n = 14 then 'e'
  else if n = 15 then 'f' else 'x'

/-- Value of a lowercase hex digit. -/
def hexVal (c : Char) : Option Nat :=
  if c = '0' then some 0 else if c = '1' then some 1
  else if c = '2' then some 2 else if c = '3' then some 3
  else if c = '4' then some 4 else if c = '5' then some 5
  else if c = '6' then some 6 else if c = '7' then some 7
  else if c = '8' then some 8 else if c = '9' then some 9
  else if c = 'a' then some 10 else if c = 'b' then some 11
  else if c = 'c' then some 12 else if c = 'd' then some 13
  else if c = 'e' then some 14 else if c = 'f' then some 15
  else none

/-- Buffer.toString of a byte string in hex. -/
def toHex (bs : List (Fin 256)) : List Char :=
  bs.foldr (fun b acc => hexDigit (b.val / 16) :: hexDigit (b.val % 16) :: acc) []

/-- Buffer.from of a hex string. -/
def fromHex : List Char → Option (List (Fin 256))
  | [] => some []
  | [_] => none
  | c1 :: c2 :: rest =>
    (hexVal c1).bind fun h =>
    (hexVal c2).bind fun l =>
    (fromHex rest).bind fun bs =>
    if hb : h < 16 ∧ l < 16 then some (⟨h * 16 + l, by omega⟩ :: bs) else none

/-- JavaScript String.split on a single separator character. -/
def splitOnChar (sep : Char) : List Char → List (List Char)
  | [] => [[]]
  | c :: rest =>
    if c = sep then [] :: splitOnChar sep rest
    else
      match splitOnChar sep rest with
      | [] => [[c]]
      | seg :: segs => (c :: seg) :: segs

/-- The AEAD primitive of the node crypto library, abstract here.  Because
the source constructs it with the deprecated createCipher/createDecipher
(key material only, no IV argument), every cipher function is a function of
the key alone; ivFromKey is the IV that construction derives internally. -/
structure AeadCipher where
  enc : List (Fin 256) → List (Fin 256) → List (Fin 256)
  tagOf : List (Fin 256) → List (Fin 256) → List (Fin 256)
  dec : List (Fin 256) → List (Fin 256) → List (Fin 256) → Option (List (Fin 256))
  ivFromKey : List (Fin 256) → List (Fin 256)

/-- TokenEncryption.encrypt: hex(iv) + colon + hex(authTag) + colon +
hex(ciphertext), where iv is the freshly drawn random byte string rand --
which the cipher construction never consumes. -/
def encryptEnvelope (c : AeadCipher) (key rand plain : List (Fin 256)) :
    List Char :=
  toHex rand ++ ':' :: (toHex (c.tagOf key plain) ++ ':' :: toHex (c.enc key plain))

/-- encrypt together with the IV the cipher construction actually used:
createCipher(algorithm, key) derives it from key alone. -/
def encryptFull (c : AeadCipher) (key rand plain : List (Fin 256)) :
    List Char × List (Fin 256) :=
  (encryptEnvelope c key rand plain, c.ivFromKey key)

/-- TokenEncryption.decrypt: split on colon, parse the three segments
(the iv segment is parsed but unused by createDecipher), authenticate and
decrypt. -/
def decrypt (c : AeadCipher) (key : List (Fin 256)) (s : List Char) :
    Option (List (Fin 256)) :=
  match splitOnChar ':' s with
  | ivh :: tagh :: ench :: _ =>
    match fromHex ivh, fromHex tagh, fromHex ench with
    | some _, some tag, some ct => c.dec key tag ct
    | _, _, _ => none
  | _ => none

/-! ### analyze-sentiment worker (src/lib/workers/analyze-sentiment.ts) -/

/-- A Comment row (fields the worker reads). -/
structure CommentRow where
  id : Nat
  message : String
  deriving DecidableEq, Repr

/-- The analysis engine result (numeric scores kept opaque as integers; the
worker only stores them). -/
structure EngineResult where
  language : String
  sentimentLabel : String
  sentimentScore : Int
  toxicityScore : Int
  keywords : List String
  deriving DecidableEq, Repr

/-- An Analysis row. -/
structure AnalysisRow where
  commentId : Nat
  result : EngineResult
  deriving DecidableEq, Repr

/-- The domain tables the worker touches. -/
structure SentimentDB where
  comments : List CommentRow
  analyses : List AnalysisRow
  deriving DecidableEq, Repr

/-- analyzeSentiment: load the comment (error if absent), skip when an
Analysis row for it already exists, otherwise run the engine and create
exactly one Analysis row. -/
def analyzeSentiment (engine : String → EngineResult) (db : SentimentDB)
    (commentId : Nat) : Except String SentimentDB :=
  match db.comments.find? (fun c => decide (c.id = commentId)) with
  | none => Except.error ("Comment not found: " ++ toString commentId)
  | some c =>
    match db.analyses.find? (fun a => decide (a.commentId = c.id)) with
    | some _ => Except.ok db
    | none =>
      Except.ok { db with
        analyses := db.analyses ++ [{ commentId := c.id, result := engine c.message }] }

/-- At most one Analysis row per comment id. -/
def AtMostOnePerComment (db : SentimentDB) : Prop :=
  ∀ k, (db.analyses.filter (fun a => decide (a.commentId = k))).length ≤ 1

/-- A concrete AEAD instance used to evaluate the envelope layer on
concrete inputs. -/
def idCipher : AeadCipher :=
  { enc := fun _ p => p, tagOf := fun _ _ => [],
    dec := fun _ _ ct => some ct, ivFromKey := fun _ => List.replicate 16 0 }

/-! ## Theorems -/

/-- C1: getNextJob is findFirst followed by a separate unconditional update
on the id, not one atomic read-modify-write.  With a store holding a single
eligible QUEUED job (id 7) and two scheduler instances that both execute the
findFirst read before either executes the update write, both instances
receive job id 7: the at-most-one-claimant property of the claim fails on
this interleaving. -/
theorem claimNext_interleaved_duplicate_claim :
    (interleavedClaim 5 [mkJob 7 "FETCH_POSTS" JobStatus.QUEUED 0 3 0]).1 =
      (interleavedClaim 5 [mkJob 7 "FETCH_POSTS" JobStatus.QUEUED 0 3 0]).2.1
    ∧ (interleavedClaim 5 [mkJob 7 "FETCH_POSTS" JobStatus.QUEUED 0 3 0]).1.map
        Job.id = some 7 := by
  decide

/-- C3: evaluation of getPagePosts against an upstream whose first page
holds 600 items and a next cursor.  The loop issues the identical request
twice (the next-cursor link is never requested), accumulates the same first
page twice, and returns 1200 items: the cursor is not followed and the
sequence does not stop exactly at the 1000-item cap. -/
theorem getPagePosts_repeats_first_page_and_overshoots_cap :
    getPagePosts "page1" 25 (fun _ => ⟨List.range 600, some "cursorXYZ"⟩) 9 =
      some (List.range 600 ++ List.range 600,
        [postsRequest "page1" 25, postsRequest "page1" 25])
    ∧ (getPagePosts "page1" 25 (fun _ => ⟨List.range 600, some "cursorXYZ"⟩) 9).map
        (fun r => r.1.length) = some 1200
    ∧ (1200 : Nat) ≠ 1000 := by
  refine ⟨by rfl, by rfl, by decide⟩

/-- C4: evaluation of one scheduler tick in its three dispatch outcomes.
A known-kind handler error is tagged with the job id, so the catch block
calls failJob and the job is requeued with backoff and the wrapped message;
a normal handler return leads to completeJob; but a job of unknown kind
throws an untagged error, the catch block's jobId test fails, failJob is
never called, and the job is left RUNNING forever instead of entering the
retry/backoff path the claim describes. -/
theorem processNextJob_outcomes :
    (processNextJob (fun _ _ => HandlerOutcome.err "boom") 5
      [mkJob 0 "FETCH_POSTS" JobStatus.QUEUED 0 3 0]).map
        (fun j => (j.status, j.lastError, j.scheduledAt)) =
      [(JobStatus.QUEUED, some "Failed to fetch posts: boom", (5 + 2000 : Int))]
    ∧ (processNextJob (fun _ _ => HandlerOutcome.ok) 5
        [mkJob 0 "FETCH_POSTS" JobStatus.QUEUED 0 3 0]).map Job.status =
      [JobStatus.COMPLETED]
    ∧ (processNextJob (fun _ _ => HandlerOutcome.ok) 5
        [mkJob 0 "SOMETHING_ELSE" JobStatus.QUEUED 0 3 0]).map
          (fun j => (j.status, j.lastError)) = [(JobStatus.RUNNING, none)] := by
  refine ⟨by decide, by decide, by decide⟩

/-- C5 counterexample: a job with attempts = 5 below maxAttempts = 6 failed
at time 100 is requeued at 100 + min(1000·2^5, 300000) = 32100, while the
formula of the claim (cap 30 seconds) demands 100 + min(1000·2^5, 30000) =
30100; the two differ. -/
theorem failJob_backoff_cap_counterexample :
    (findJob (failJob [mkJob 4 "FETCH_POSTS" JobStatus.RUNNING 5 6 0] 4 "boom" 100)
        4).map Job.scheduledAt = some 32100
    ∧ (100 + (min (1000 * 2 ^ 5) 30000 : Int) = 30100)
    ∧ (32100 : Int) ≠ 30100 := by
  decide

/-- C6 counterexample: with every fetch answering HTTP 400 (invalid token,
a non-retriable 4xx), makeRequest with its default maxRetries = 3 issues 3
fetches before propagating a plain error message, instead of failing
immediately after 1 fetch without consuming retry budget; and the propagated
error is an untyped message string, not a typed ApiError. -/
theorem makeRequest_4xx_consumes_retry_budget :
    makeRequest (α := Nat)
        (fun _ => FetchOutcome.httpError 400 "Invalid OAuth access token") 3 =
      (Except.error "Meta API Error: Invalid OAuth access token", 3)
    ∧ (3 : Nat) ≠ 1 := by
  exact ⟨rfl, by decide⟩

/-! ### Helper lemmas about the job store -/

/-- Every job id in the table is below the fresh id. -/
theorem freshId_gt {s : List Job} {j : Job} (h : j ∈ s) : j.id < freshId s := by
  induction s with
  | nil => cases h
  | cons x xs ih =>
    have hx : freshId (x :: xs) = max (x.id + 1) (freshId xs) := rfl
    rcases List.mem_cons.mp h with h1 | h2
    · subst h1; rw [hx]; exact lt_of_lt_of_le (Nat.lt_succ_self _) (le_max_left _ _)
    · rw [hx]; exact lt_of_lt_of_le (ih h2) (le_max_right _ _)

/-- Two jobs of a duplicate-free table with the same id are the same row. -/
theorem nodup_eq_of_id {s : List Job} (hnd : NoDupIds s) {a b : Job}
    (ha : a ∈ s) (hb : b ∈ s) (hid : a.id = b.id) : a = b :=
  List.inj_on_of_nodup_map hnd ha hb hid

/-- markRunning does not change the id column. -/
theorem markRunning_map_id (s : List Job) (i : Nat) (now : Int) :
    (markRunning s i now).map Job.id = s.map Job.id := by
  unfold markRunning
  rw [List.map_map]
  apply List.map_congr_left
  intro a _
  by_cases h : a.id = i <;> simp [h]

/-- completeJob does not change the id column. -/
theorem completeJob_map_id (s : List Job) (i : Nat) (now : Int) :
    (completeJob s i now).map Job.id = s.map Job.id := by
  unfold completeJob
  rw [List.map_map]
  apply List.map_congr_left
  intro a _
  by_cases h : a.id = i <;> simp [h]

/-- failJob does not change the id column. -/
theorem failJob_map_id (s : List Job) (i : Nat) (e : String) (now : Int) :
    (failJob s i e now).map Job.id = s.map Job.id := by
  unfold failJob
  cases hf : findJob s i with
  | none => rfl
  | some j0 =>
    rw [List.map_map]
    apply List.map_congr_left
    intro a _
    by_cases h : a.id = i <;> simp [h]

/-- The job pickEarliest picks is in the list. -/
theorem pickEarliest_mem : ∀ {l : List Job} {j : Job},
    pickEarliest l = some j → j ∈ l := by
  intro l
  induction l with
  | nil => intro j h; cases h
  | cons x xs ih =>
    intro j h
    cases hx : pickEarliest xs with
    | none =>
      simp only [pickEarliest, hx] at h
      exact List.mem_cons.mpr (Or.inl (Option.some.inj h).symm)
    | some k =>
      simp only [pickEarliest, hx] at h
      by_cases hlt : k.scheduledAt < x.scheduledAt
      · rw [if_pos hlt] at h
        have hjk : j = k := (Option.some.inj h).symm
        subst hjk
        exact List.mem_cons_of_mem _ (ih hx)
      · rw [if_neg hlt] at h
        exact List.mem_cons.mpr (Or.inl (Option.some.inj h).symm)

/-- What the findFirst of getNextJob guarantees about the job it returns. -/
theorem findNextJob_spec {now : Int} {s : List Job} {j : Job}
    (h : findNextJob now s = some j) :
    j ∈ s ∧ j.status = JobStatus.QUEUED ∧ j.scheduledAt ≤ now ∧
      j.attempts < j.maxAttempts := by
  unfold findNextJob at h
  have hm := pickEarliest_mem h
  have hf := List.mem_filter.mp hm
  refine ⟨hf.1, ?_⟩
  have he := hf.2
  simpa [eligible] using he

/-- What findUnique guarantees about the job it returns. -/
theorem findJob_spec {s : List Job} {i : Nat} {j : Job}
    (h : findJob s i = some j) : j ∈ s ∧ j.id = i := by
  refine ⟨List.mem_of_find?_eq_some h, ?_⟩
  have := List.find?_some h
  simpa using this

/-- On a duplicate-free table, findUnique finds exactly the member row with
the requested id. -/
theorem findJob_eq_some {s : List Job} {i : Nat} {j : Job} (hnd : NoDupIds s)
    (hmem : j ∈ s) (hid : j.id = i) : findJob s i = some j := by
  have hs : (s.find? (fun j2 => decide (j2.id = i))).isSome := by
    rw [List.find?_isSome]
    exact ⟨j, hmem, by simp [hid]⟩
  obtain ⟨j0, hj0⟩ := Option.isSome_iff_exists.mp hs
  have hspec := findJob_spec (show findJob s i = some j0 from hj0)
  have heq : j0 = j := nodup_eq_of_id hnd hspec.1 hmem (by rw [hspec.2, hid])
  rw [findJob, hj0, heq]

/-! ### C10 and C5 -/

/-- C10: completeJob updates by id only, with no condition on the current
status: every row with the target id -- QUEUED, RUNNING, COMPLETED or FAILED
alike -- becomes the same row with status COMPLETED and completedAt stamped,
every other field untouched; rows with other ids are untouched, and no row
is created or deleted. -/
theorem completeJob_unconditional (s : List Job) (i : Nat) (now : Int) :
    (∀ j ∈ s, j.id = i →
      { j with status := JobStatus.COMPLETED, completedAt := some now } ∈
        completeJob s i now)
    ∧ (∀ j ∈ s, j.id ≠ i → j ∈ completeJob s i now)
    ∧ (completeJob s i now).length = s.length := by
  refine ⟨?_, ?_, by simp [completeJob]⟩
  · intro j hj hid
    unfold completeJob
    exact List.mem_map.mpr ⟨j, hj, by simp [hid]⟩
  · intro j hj hid
    unfold completeJob
    exact List.mem_map.mpr ⟨j, hj, by simp [hid]⟩

/-- C10 witness: completing a FAILED job (attempts exhausted) still lands on
COMPLETED with completedAt stamped. -/
theorem completeJob_unconditional_witness :
    ({ mkJob 3 "CLEANUP_DATA" JobStatus.FAILED 2 2 0 with
        status := JobStatus.COMPLETED, completedAt := some 9 } ∈
      completeJob [mkJob 3 "CLEANUP_DATA" JobStatus.FAILED 2 2 0] 3 9) :=
  (completeJob_unconditional [mkJob 3 "CLEANUP_DATA" JobStatus.FAILED 2 2 0] 3 9).1
    (mkJob 3 "CLEANUP_DATA" JobStatus.FAILED 2 2 0) (by decide) rfl

/-- C5 amended: failJob on a present job requeues it (status QUEUED, retry)
at now + backoff(attempts) while attempts < maxAttempts, and otherwise marks
it FAILED permanently with lastError recorded and scheduledAt untouched --
but the backoff formula is min(1000·2^attempts, 300000) milliseconds: base
1 second, cap 300 seconds (5 minutes), not the 30-second cap of the claim. -/
theorem failJob_retry_or_fail (s : List Job) (i : Nat) (e : String) (now : Int)
    (j : Job) (hnd : NoDupIds s) (hmem : j ∈ s) (hid : j.id = i) :
    calculateBackoffDelay j.attempts = min (1000 * 2 ^ j.attempts) 300000
    ∧ (j.attempts < j.maxAttempts →
        { j with status := JobStatus.QUEUED, lastError := some e,
                 scheduledAt := now + (calculateBackoffDelay j.attempts : Int),
                 startedAt := none } ∈ failJob s i e now)
    ∧ (j.maxAttempts ≤ j.attempts →
        { j with status := JobStatus.FAILED, lastError := some e,
                 startedAt := none } ∈ failJob s i e now)
    ∧ (∀ j2 ∈ s, j2.id ≠ i → j2 ∈ failJob s i e now) := by
  have hfind := findJob_eq_some hnd hmem hid
  refine ⟨rfl, ?_, ?_, ?_⟩
  · intro hlt
    simp only [failJob, hfind]
    exact List.mem_map.mpr ⟨j, hmem, by simp [hid, hlt]⟩
  · intro hge
    have hnlt : ¬ j.attempts < j.maxAttempts := not_lt.mpr hge
    simp only [failJob, hfind]
    exact List.mem_map.mpr ⟨j, hmem, by simp [hid, hnlt]⟩
  · intro j2 hj2 hne
    simp only [failJob, hfind]
    exact List.mem_map.mpr ⟨j2, hj2, by simp [hne]⟩

/-- C5 witness: the job with attempts 5 of 6 failed at time 100 is requeued
at 100 + backoff(5) = 100 + 32000. -/
theorem failJob_retry_or_fail_witness :
    ({ mkJob 4 "FETCH_POSTS" JobStatus.RUNNING 5 6 0 with
        status := JobStatus.QUEUED, lastError := some "boom",
        scheduledAt := 100 + (calculateBackoffDelay 5 : Int),
        startedAt := none } ∈
      failJob [mkJob 4 "FETCH_POSTS" JobStatus.RUNNING 5 6 0] 4 "boom" 100) :=
  (failJob_retry_or_fail [mkJob 4 "FETCH_POSTS" JobStatus.RUNNING 5 6 0] 4
      "boom" 100 (mkJob 4 "FETCH_POSTS" JobStatus.RUNNING 5 6 0)
      (by unfold NoDupIds; decide) (by decide) rfl).2.1 (by decide)

/-! ### Preservation of the store invariant (for C2) -/

/-- The empty store satisfies the invariant. -/
theorem invStore_nil : InvStore [] := by
  refine ⟨List.nodup_nil, ?_⟩
  intro j hj
  cases hj

/-- enqueue preserves the store invariant. -/
theorem invStore_enqueue {s : List Job} (hinv : InvStore s)
    (k p : String) (m : Nat) (sc : Option Int) (now : Int) :
    InvStore (enqueue s k p m sc now) := by
  obtain ⟨hnd, hall⟩ := hinv
  constructor
  · show ((enqueue s k p m sc now).map Job.id).Nodup
    unfold enqueue
    rw [List.map_append, List.nodup_append]
    refine ⟨hnd, by simp, ?_⟩
    intro a ha hb
    simp only [List.map_cons, List.map_nil, List.mem_singleton] at hb
    obtain ⟨j, hj, hja⟩ := List.mem_map.mp ha
    have hlt := freshId_gt hj
    rw [hja, hb] at hlt
    exact lt_irrefl _ hlt
  · intro j hj
    rcases List.mem_append.mp hj with h1 | h2
    · exact hall j h1
    · simp only [List.mem_singleton] at h2
      subst h2
      exact ⟨Nat.zero_le _, fun hF => JobStatus.noConfusion hF⟩

/-- The claim transition of getNextJob preserves the store invariant. -/
theorem invStore_claim {s : List Job} (hinv : InvStore s) (now : Int) :
    InvStore ((getNextJob now s).2) := by
  obtain ⟨hnd, hall⟩ := hinv
  cases hf : findNextJob now s with
  | none =>
    simp only [getNextJob, hf]
    exact ⟨hnd, hall⟩
  | some j0 =>
    obtain ⟨hmem0, hq, hsch, hlt⟩ := findNextJob_spec hf
    simp only [getNextJob, hf]
    constructor
    · show ((markRunning s j0.id now).map Job.id).Nodup
      rw [markRunning_map_id]
      exact hnd
    · intro j2 hj2
      unfold markRunning at hj2
      obtain ⟨a, ha, hfa⟩ := List.mem_map.mp hj2
      by_cases h : a.id = j0.id
      · have haj : a = j0 := nodup_eq_of_id hnd ha hmem0 h
        simp only [if_pos h] at hfa
        subst hfa
        subst haj
        exact ⟨Nat.succ_le_of_lt hlt, fun hF => JobStatus.noConfusion hF⟩
      · simp only [if_neg h] at hfa
        subst hfa
        exact hall a ha

/-- completeJob preserves the store invariant. -/
theorem invStore_complete {s : List Job} (hinv : InvStore s) (i : Nat)
    (now : Int) : InvStore (completeJob s i now) := by
  obtain ⟨hnd, hall⟩ := hinv
  constructor
  · show ((completeJob s i now).map Job.id).Nodup
    rw [completeJob_map_id]
    exact hnd
  · intro j2 hj2
    unfold completeJob at hj2
    obtain ⟨a, ha, hfa⟩ := List.mem_map.mp hj2
    by_cases h : a.id = i
    · simp only [if_pos h] at hfa
      subst hfa
      exact ⟨(hall a ha).1, fun hF => JobStatus.noConfusion hF⟩
    · simp only [if_neg h] at hfa
      subst hfa
      exact hall a ha

/-- failJob preserves the store invariant. -/
theorem invStore_fail {s : List Job} (hinv : InvStore s) (i : Nat) (e : String)
    (now : Int) : InvStore (failJob s i e now) := by
  obtain ⟨hnd, hall⟩ := hinv
  cases hfj : findJob s i with
  | none =>
    simp only [failJob, hfj]
    exact ⟨hnd, hall⟩
  | some j0 =>
    have hspec := findJob_spec hfj
    constructor
    · show ((failJob s i e now).map Job.id).Nodup
      rw [failJob_map_id]
      exact hnd
    · intro j2 hj2
      simp only [failJob, hfj] at hj2
      obtain ⟨a, ha, hfa⟩ := List.mem_map.mp hj2
      by_cases h : a.id = i
      · have haj : a = j0 := nodup_eq_of_id hnd ha hspec.1 (h.trans hspec.2.symm)
        subst haj
        by_cases hr : a.attempts < a.maxAttempts
        · simp only [if_pos h, if_pos hr] at hfa
          subst hfa
          exact ⟨(hall a ha).1, fun hF => JobStatus.noConfusion hF⟩
        · simp only [if_pos h, if_neg hr] at hfa
          subst hfa
          exact ⟨(hall a ha).1, fun _ =>
            le_antisymm (hall a ha).1 (not_lt.mp hr)⟩
      · simp only [if_neg h] at hfa
        subst hfa
        exact hall a ha

/-- Every store operation preserves the invariant. -/
theorem invStore_step {s : List Job} (hinv : InvStore s) (op : QueueOp) :
    InvStore (step s op) := by
  cases op with
  | enq k p m sc now => exact invStore_enqueue hinv k p m sc now
  | claim now => exact invStore_claim hinv now
  | complete i now => exact invStore_complete hinv i now
  | fail i e now => exact invStore_fail hinv i e now

/-- The invariant holds along every operation sequence. -/
theorem invStore_runOps {s : List Job} (hinv : InvStore s) :
    ∀ ops : List QueueOp, InvStore (runOps s ops) := by
  intro ops
  induction ops generalizing s with
  | nil => exact hinv
  | cons op ops ih => exact ih (invStore_step hinv op)

/-- A terminal row (attempt budget exhausted, not QUEUED) stays terminal
under every single store operation. -/
theorem termAt_step {s : List Job} {i : Nat} (hinv : InvStore s)
    (ht : TermAt i s) (op : QueueOp) : TermAt i (step s op) := by
  obtain ⟨hnd, hall⟩ := hinv
  obtain ⟨j, hj, hid, hterm, hst⟩ := ht
  cases op with
  | enq k p m sc now =>
    exact ⟨j, List.mem_append_left _ hj, hid, hterm, hst⟩
  | claim now =>
    cases hf : findNextJob now s with
    | none =>
      refine ⟨j, ?_, hid, hterm, hst⟩
      simp only [step, getNextJob, hf]
      exact hj
    | some j0 =>
      obtain ⟨hmem0, hq, _, _⟩ := findNextJob_spec hf
      have hne : j.id ≠ j0.id := by
        intro he
        have hjj : j = j0 := nodup_eq_of_id hnd hj hmem0 he
        rw [hjj] at hst
        exact hst hq
      refine ⟨j, ?_, hid, hterm, hst⟩
      simp only [step, getNextJob, hf]
      unfold markRunning
      exact List.mem_map.mpr ⟨j, hj, by simp [hne]⟩
  | complete i2 now =>
    by_cases h : j.id = i2
    · refine ⟨{ j with status := JobStatus.COMPLETED, completedAt := some now },
        ?_, hid, hterm, fun hF => JobStatus.noConfusion hF⟩
      show _ ∈ completeJob s i2 now
      unfold completeJob
      exact List.mem_map.mpr ⟨j, hj, by simp [h]⟩
    · refine ⟨j, ?_, hid, hterm, hst⟩
      show j ∈ completeJob s i2 now
      unfold completeJob
      exact List.mem_map.mpr ⟨j, hj, by simp [h]⟩
  | fail i2 e now =>
    cases hfj : findJob s i2 with
    | none =>
      refine ⟨j, ?_, hid, hterm, hst⟩
      simp only [step, failJob, hfj]
      exact hj
    | some j0 =>
      have hspec := findJob_spec hfj
      by_cases h : j.id = i2
      · have hj0 : j0 = j := nodup_eq_of_id hnd hspec.1 hj (hspec.2.trans h.symm)
        subst hj0
        have hr : ¬ j0.attempts < j0.maxAttempts := not_lt.mpr hterm
        refine ⟨{ j0 with status := JobStatus.FAILED, lastError := some e, startedAt := none },
          ?_, hid, hterm, fun hF => JobStatus.noConfusion hF⟩
        simp only [step, failJob, hfj]
        exact List.mem_map.mpr ⟨j0, hj, by simp [h, hr]⟩
      · refine ⟨j, ?_, hid, hterm, hst⟩
        simp only [step, failJob, hfj]
        exact List.mem_map.mpr ⟨j, hj, by simp [h]⟩

/-- A terminal row stays terminal along every operation sequence. -/
theorem termAt_runOps {s : List Job} {i : Nat} (hinv : InvStore s)
    (ht : TermAt i s) (ops : List QueueOp) : TermAt i (runOps s ops) := by
  induction ops generalizing s with
  | nil => exact ht
  | cons op ops ih => exact ih (invStore_step hinv op) (termAt_step hinv ht op)

/-- Only the fail operation can introduce a FAILED status. -/
theorem noFailed_step {s : List Job} {op : QueueOp}
    (h : ∀ j ∈ s, j.status ≠ JobStatus.FAILED) (hop : isFailOp op = false) :
    ∀ j ∈ step s op, j.status ≠ JobStatus.FAILED := by
  cases op with
  | enq k p m sc now =>
    intro j hj
    rcases List.mem_append.mp hj with h1 | h2
    · exact h j h1
    · simp only [List.mem_singleton] at h2
      subst h2
      exact fun hF => JobStatus.noConfusion hF
  | claim now =>
    intro j hj
    cases hf : findNextJob now s with
    | none =>
      simp only [step, getNextJob, hf] at hj
      exact h j hj
    | some j0 =>
      simp only [step, getNextJob, hf] at hj
      unfold markRunning at hj
      obtain ⟨a, ha, hfa⟩ := List.mem_map.mp hj
      by_cases hcase : a.id = j0.id
      · simp only [if_pos hcase] at hfa
        subst hfa
        exact fun hF => JobStatus.noConfusion hF
      · simp only [if_neg hcase] at hfa
        subst hfa
        exact h a ha
  | complete i now =>
    intro j hj
    unfold step completeJob at hj
    obtain ⟨a, ha, hfa⟩ := List.mem_map.mp hj
    by_cases hcase : a.id = i
    · simp only [if_pos hcase] at hfa
      subst hfa
      exact fun hF => JobStatus.noConfusion hF
    · simp only [if_neg hcase] at hfa
      subst hfa
      exact h a ha
  | fail i e now => exact Bool.noConfusion hop

/-- Without fail operations no job is ever FAILED. -/
theorem noFailed_runOps : ∀ (ops : List QueueOp) {s : List Job},
    (∀ j ∈ s, j.status ≠ JobStatus.FAILED) →
    (∀ op ∈ ops, isFailOp op = false) →
    ∀ j ∈ runOps s ops, j.status ≠ JobStatus.FAILED := by
  intro ops
  induction ops with
  | nil => intro s h _; exact h
  | cons op ops ih =>
    intro s h hops
    exact ih (noFailed_step h (hops op (List.mem_cons_self op ops)))
      (fun op2 h2 => hops op2 (List.mem_cons_of_mem _ h2))

/-- C2: starting from an empty store, after every sequence of store
operations (enqueue, claim, complete, fail) every job satisfies
attempts ≤ maxAttempts; a job carries status FAILED only with
attempts = maxAttempts, and only if some fail operation -- a handler error
-- occurred; and once a job is FAILED, no continuation of the operation
sequence ever has a job with that id in status QUEUED again. -/
theorem job_attempts_failed_invariants (ops ops2 : List QueueOp) :
    (∀ j ∈ runOps [] ops, j.attempts ≤ j.maxAttempts
      ∧ (j.status = JobStatus.FAILED → j.attempts = j.maxAttempts))
    ∧ ((∀ op ∈ ops, isFailOp op = false) →
        ∀ j ∈ runOps [] ops, j.status ≠ JobStatus.FAILED)
    ∧ (∀ j ∈ runOps [] ops, j.status = JobStatus.FAILED →
        ∀ j2 ∈ runOps [] (ops ++ ops2), j2.id = j.id →
          j2.status ≠ JobStatus.QUEUED) := by
  have hinv : InvStore (runOps [] ops) := invStore_runOps invStore_nil ops
  refine ⟨fun j hj => hinv.2 j hj, ?_, ?_⟩
  · intro hops
    exact noFailed_runOps ops (fun j hj => (List.not_mem_nil j hj).elim) hops
  · intro j hj hF j2 hj2 hid2
    have ht : TermAt j.id (runOps [] ops) :=
      ⟨j, hj, rfl, le_of_eq ((hinv.2 j hj).2 hF).symm,
        by rw [hF]; exact fun hQ => JobStatus.noConfusion hQ⟩
    have hrun : runOps [] (ops ++ ops2) = runOps (runOps [] ops) ops2 := by
      unfold runOps
      exact List.foldl_append _ _ _ _
    have ht2 := termAt_runOps hinv ht ops2
    have hinv2 := invStore_runOps hinv ops2
    rw [hrun] at hj2
    obtain ⟨jt, hjt, hidt, _, hstt⟩ := ht2
    have hj2t : j2 = jt :=
      nodup_eq_of_id hinv2.1 hj2 hjt (hid2.trans hidt.symm)
    rw [hj2t]
    exact hstt

/-- C2 witness: a job enqueued with maxAttempts 1, claimed and failed is
FAILED; after a further fail and a complete operation the row with its id is
still not QUEUED. -/
theorem job_attempts_failed_invariants_witness :
    ({ mkJob 0 "FETCH_POSTS" JobStatus.COMPLETED 1 1 0 with
        completedAt := some 30, lastError := some "again" } : Job).status ≠
      JobStatus.QUEUED :=
  (job_attempts_failed_invariants
      [QueueOp.enq "FETCH_POSTS" "" 1 none 0, QueueOp.claim 0,
        QueueOp.fail 0 "boom" 10]
      [QueueOp.fail 0 "again" 20, QueueOp.complete 0 30]).2.2
    { mkJob 0 "FETCH_POSTS" JobStatus.FAILED 1 1 0 with lastError := some "boom" }
    (by decide) rfl
    { mkJob 0 "FETCH_POSTS" JobStatus.COMPLETED 1 1 0 with
        completedAt := some 30, lastError := some "again" }
    (by decide) rfl

/-! ### C6: the retry loop of makeRequest -/

/-- Every fetch answering a non-ok status is retried until the attempt
budget is spent. -/
theorem makeRequestAux_httpError {α : Type} (st : Nat) (m : String) :
    ∀ r a : Nat,
      makeRequestAux (α := α) (fun _ => FetchOutcome.httpError st m) a (r + 1) =
        (Except.error ("Meta API Error: " ++ m), a + r + 1) := by
  intro r
  induction r with
  | zero =>
    intro a
    simp [makeRequestAux]
  | succ n ih =>
    intro a
    have h1 : makeRequestAux (α := α) (fun _ => FetchOutcome.httpError st m) a
        (n + 1 + 1) =
        makeRequestAux (fun _ => FetchOutcome.httpError st m) (a + 1) (n + 1) := by
      simp [makeRequestAux]
    rw [h1, ih]
    have h2 : a + 1 + n + 1 = a + (n + 1) + 1 := by omega
    rw [h2]

/-- Every fetch answering 429 is retried; the loop then falls through to the
Max-retries-exceeded error. -/
theorem makeRequestAux_rateLimited {α : Type} :
    ∀ r a : Nat,
      makeRequestAux (α := α) (fun _ => FetchOutcome.rateLimited) a r =
        (Except.error "Max retries exceeded", a + r) := by
  intro r
  induction r with
  | zero =>
    intro a
    simp [makeRequestAux]
  | succ n ih =>
    intro a
    have h1 : makeRequestAux (α := α) (fun _ => FetchOutcome.rateLimited) a
        (n + 1) =
        makeRequestAux (fun _ => FetchOutcome.rateLimited) (a + 1) n := by
      simp [makeRequestAux]
    rw [h1, ih]
    have h2 : a + 1 + n = a + (n + 1) := by omega
    rw [h2]

/-- C6 amended: makeRequest treats every non-ok response -- non-retriable
4xx included -- like a transient error: it retries with backoff until the
whole budget of maxRetries fetches is spent and only then propagates a plain
Error message (the Meta-API-Error string for a non-ok response, the
Max-retries-exceeded string when every attempt was throttled); no typed
RateLimitExceeded or ApiError value exists. -/
theorem makeRequest_retry_behavior (st : Nat) (m : String) (n : Nat)
    (hn : 1 ≤ n) :
    makeRequest (α := Unit) (fun _ => FetchOutcome.httpError st m) n =
      (Except.error ("Meta API Error: " ++ m), n)
    ∧ makeRequest (α := Unit) (fun _ => FetchOutcome.rateLimited) n =
      (Except.error "Max retries exceeded", n) := by
  obtain ⟨r, hr⟩ : ∃ r, n = r + 1 := ⟨n - 1, by omega⟩
  subst hr
  constructor
  · have h := makeRequestAux_httpError (α := Unit) st m r 0
    simpa [makeRequest] using h
  · have h := makeRequestAux_rateLimited (α := Unit) (r + 1) 0
    simpa [makeRequest] using h

/-- C6 witness: at maxRetries 3 a permanent 403 is fetched three times and
then surfaces as a plain message. -/
theorem makeRequest_retry_behavior_witness :
    makeRequest (α := Unit) (fun _ => FetchOutcome.httpError 403 "perm") 3 =
      (Except.error ("Meta API Error: " ++ "perm"), 3) :=
  (makeRequest_retry_behavior 403 "perm" 3 (by decide)).1

/-! ### C7 and C8: the encryption envelope -/

/-- A hex digit is never the colon separator. -/
theorem hexDigit_ne_colon (n : Nat) : hexDigit n ≠ ':' := by
  rcases Nat.lt_or_ge n 16 with h | h
  · have hall : ∀ m : Fin 16, hexDigit m.val ≠ ':' := by decide
    exact hall ⟨n, h⟩
  · have hx : hexDigit n = 'x' := by
      unfold hexDigit
      repeat rw [if_neg (by omega)]
    rw [hx]
    decide

/-- Hex strings never contain the colon separator. -/
theorem toHex_ne_colon (bs : List (Fin 256)) : ∀ c ∈ toHex bs, c ≠ ':' := by
  induction bs with
  | nil => intro c hc; cases hc
  | cons b bs ih =>
    intro c hc
    have hx : toHex (b :: bs) =
        hexDigit (b.val / 16) :: hexDigit (b.val % 16) :: toHex bs := rfl
    rw [hx] at hc
    rcases List.mem_cons.mp hc with h1 | h2
    · subst h1; exact hexDigit_ne_colon _
    · rcases List.mem_cons.mp h2 with h3 | h4
      · subst h3; exact hexDigit_ne_colon _
      · exact ih c h4

/-- Hex digits decode back to their value. -/
theorem hexVal_hexDigit : ∀ m : Fin 16, hexVal (hexDigit m.val) = some m.val := by
  decide

/-- The hex codec roundtrips. -/
theorem fromHex_toHex (bs : List (Fin 256)) : fromHex (toHex bs) = some bs := by
  induction bs with
  | nil => rfl
  | cons b bs ih =>
    have h1 : b.val / 16 < 16 := by have := b.isLt; omega
    have h2 : b.val % 16 < 16 := Nat.mod_lt _ (by norm_num)
    have e1 : hexVal (hexDigit (b.val / 16)) = some (b.val / 16) :=
      hexVal_hexDigit ⟨_, h1⟩
    have e2 : hexVal (hexDigit (b.val % 16)) = some (b.val % 16) :=
      hexVal_hexDigit ⟨_, h2⟩
    show fromHex (hexDigit (b.val / 16) :: hexDigit (b.val % 16) :: toHex bs) =
      some (b :: bs)
    simp only [fromHex, e1, e2, ih, Option.some_bind]
    rw [dif_pos ⟨h1, h2⟩]
    congr 1
    apply List.cons_eq_cons.mpr
    refine ⟨?_, rfl⟩
    apply Fin.ext
    show b.val / 16 * 16 + b.val % 16 = b.val
    omega

/-- Splitting a separator-free string yields the single segment. -/
theorem splitOnChar_no_sep (sep : Char) : ∀ l : List Char,
    (∀ c ∈ l, c ≠ sep) → splitOnChar sep l = [l] := by
  intro l
  induction l with
  | nil => intro _; rfl
  | cons c rest ih =>
    intro h
    have hc : c ≠ sep := h c (List.mem_cons_self c rest)
    have hr := ih (fun c2 h2 => h c2 (List.mem_cons_of_mem _ h2))
    simp only [splitOnChar, if_neg hc, hr]

/-- Splitting off the first separator-free segment. -/
theorem splitOnChar_append (sep : Char) : ∀ l t : List Char,
    (∀ c ∈ l, c ≠ sep) →
    splitOnChar sep (l ++ sep :: t) = l :: splitOnChar sep t := by
  intro l
  induction l with
  | nil =>
    intro t _
    show splitOnChar sep (sep :: t) = [] :: splitOnChar sep t
    simp [splitOnChar]
  | cons c rest ih =>
    intro t h
    have hc : c ≠ sep := h c (List.mem_cons_self c rest)
    have hr := ih t (fun c2 h2 => h c2 (List.mem_cons_of_mem _ h2))
    show splitOnChar sep (c :: (rest ++ sep :: t)) =
      (c :: rest) :: splitOnChar sep t
    simp only [splitOnChar, if_neg hc, hr]

/-- C7: decrypt inverts encrypt for every plaintext byte string (covering
printable ASCII and multi-byte UTF-8 alike, since a string enters the cipher
as its UTF-8 bytes), for every fresh-IV draw and key, given that the
underlying node AEAD primitive inverts itself on matching tag and
ciphertext; the envelope layer -- hex encoding, colon separation and
three-segment recovery -- loses nothing. -/
theorem encrypt_decrypt_roundtrip (c : AeadCipher)
    (key rand plain : List (Fin 256))
    (hc : c.dec key (c.tagOf key plain) (c.enc key plain) = some plain) :
    decrypt c key (encryptEnvelope c key rand plain) = some plain := by
  have hsplit : splitOnChar ':' (encryptEnvelope c key rand plain) =
      [toHex rand, toHex (c.tagOf key plain), toHex (c.enc key plain)] := by
    unfold encryptEnvelope
    rw [splitOnChar_append ':' (toHex rand) _ (toHex_ne_colon rand)]
    rw [splitOnChar_append ':' (toHex (c.tagOf key plain)) _ (toHex_ne_colon _)]
    rw [splitOnChar_no_sep ':' (toHex (c.enc key plain)) (toHex_ne_colon _)]
  unfold decrypt
  rw [hsplit]
  simp only [fromHex_toHex]
  exact hc

/-- C7 witness: a concrete roundtrip on the UTF-8 bytes 195,169 of a
two-byte character. -/
theorem encrypt_decrypt_roundtrip_witness :
    decrypt idCipher [1, 2] (encryptEnvelope idCipher [1, 2] [7, 8] [195, 169]) =
      some [195, 169] :=
  encrypt_decrypt_roundtrip idCipher [1, 2] [7, 8] [195, 169] rfl

/-- C8: the IV the cipher actually uses is derived from the key alone by
the deprecated createCipher construction, so any two encrypt calls under
the same key use the identical cipher IV -- no matter which fresh random
bytes were drawn and which plaintexts are encrypted.  The freshly drawn
bytes only decorate the envelope; the claim that the cipher-level IV is
fresh per call fails structurally. -/
theorem encrypt_cipher_iv_independent_of_random (c : AeadCipher)
    (key r1 r2 p1 p2 : List (Fin 256)) :
    (encryptFull c key r1 p1).2 = (encryptFull c key r2 p2).2 := rfl


/-! ### C9: the analyze-sentiment worker -/

/-- find? skips a prefix in which nothing matches. -/
theorem find?_append_none {α : Type} {l1 l2 : List α} {p : α → Bool}
    (h : l1.find? p = none) : (l1 ++ l2).find? p = l2.find? p := by
  induction l1 with
  | nil => rfl
  | cons a l ih =>
    by_cases hp : p a = true
    · rw [List.find?_cons_of_pos l hp] at h; cases h
    · rw [List.find?_cons_of_neg l hp] at h
      rw [List.cons_append, List.find?_cons_of_neg _ hp]
      exact ih h

/-- C9: the analyze-sentiment handler is idempotent: when an Analysis row
for the comment already exists it succeeds without writing (the database is
returned unchanged); when none exists it appends exactly one row; a
successful run is a fixed point on the resulting database (a redelivered job
is a no-op), and the at-most-one-Analysis-per-comment invariant is preserved
by every successful run. -/
theorem analyzeSentiment_idempotent_once_per_comment (engine : String → EngineResult) (db : SentimentDB) (cid : Nat) :
    (∀ c, db.comments.find? (fun c2 => decide (c2.id = cid)) = some c →
      (∀ a, db.analyses.find? (fun a2 => decide (a2.commentId = c.id)) = some a →
        analyzeSentiment engine db cid = Except.ok db)
      ∧ (db.analyses.find? (fun a2 => decide (a2.commentId = c.id)) = none →
        analyzeSentiment engine db cid = Except.ok { db with analyses :=
          db.analyses ++ [{ commentId := c.id, result := engine c.message }] }))
    ∧ (∀ db2, analyzeSentiment engine db cid = Except.ok db2 →
        analyzeSentiment engine db2 cid = Except.ok db2)
    ∧ (AtMostOnePerComment db → ∀ db2,
        analyzeSentiment engine db cid = Except.ok db2 →
          AtMostOnePerComment db2) := by
  refine ⟨?_, ?_, ?_⟩
  · intro c hc
    constructor
    · intro a ha
      simp only [analyzeSentiment, hc, ha]
    · intro hnone
      simp only [analyzeSentiment, hc, hnone]
  · intro db2 h
    cases hc : db.comments.find? (fun c2 => decide (c2.id = cid)) with
    | none =>
      exact Except.noConfusion (by simp only [analyzeSentiment, hc] at h; exact h)
    | some c =>
      cases ha : db.analyses.find? (fun a2 => decide (a2.commentId = c.id)) with
      | some a0 =>
        simp only [analyzeSentiment, hc, ha, Except.ok.injEq] at h
        subst h
        simp only [analyzeSentiment, hc, ha]
      | none =>
        simp only [analyzeSentiment, hc, ha, Except.ok.injEq] at h
        subst h
        have hfind : List.find? (fun a => decide (a.commentId = c.id))
            [({ commentId := c.id, result := engine c.message } : AnalysisRow)] =
            some { commentId := c.id, result := engine c.message } :=
          List.find?_cons_of_pos _ (by simp)
        simp only [analyzeSentiment, hc, find?_append_none ha, hfind]
  · intro hA db2 h k
    cases hc : db.comments.find? (fun c2 => decide (c2.id = cid)) with
    | none =>
      exact Except.noConfusion (by simp only [analyzeSentiment, hc] at h; exact h)
    | some c =>
      cases ha : db.analyses.find? (fun a2 => decide (a2.commentId = c.id)) with
      | some a0 =>
        simp only [analyzeSentiment, hc, ha, Except.ok.injEq] at h
        subst h
        exact hA k
      | none =>
        simp only [analyzeSentiment, hc, ha, Except.ok.injEq] at h
        subst h
        show (((db.analyses ++
          [({ commentId := c.id, result := engine c.message } : AnalysisRow)]).filter
            (fun a2 => decide (a2.commentId = k))).length) ≤ 1
        rw [List.filter_append]
        by_cases hk : c.id = k
        · have hnil : db.analyses.filter (fun a2 => decide (a2.commentId = k)) = [] := by
            rw [List.filter_eq_nil_iff]
            intro a2 ha2
            have hno := List.find?_eq_none.mp ha a2 ha2
            simp only [decide_eq_true_eq] at hno ⊢
            exact fun hco => hno (hco.trans hk.symm)
          rw [hnil]
          simp [List.filter_cons, hk]
        · have hrowf : (fun a2 => decide (a2.commentId = k))
              ({ commentId := c.id, result := engine c.message } : AnalysisRow) = false := by
            simp [hk]
          simp [List.filter_cons, hrowf]
          exact hA k

/-- C9 witness: rerunning the handler on the database its first run produced
leaves it unchanged. -/
theorem analyzeSentiment_idempotent_witness :
    analyzeSentiment (fun _ => ⟨"en", "POSITIVE", 9, 0, []⟩)
        ⟨[⟨1, "great"⟩], [⟨1, ⟨"en", "POSITIVE", 9, 0, []⟩⟩]⟩ 1 =
      Except.ok ⟨[⟨1, "great"⟩], [⟨1, ⟨"en", "POSITIVE", 9, 0, []⟩⟩]⟩ :=
  (analyzeSentiment_idempotent_once_per_comment (fun _ => ⟨"en", "POSITIVE", 9, 0, []⟩) ⟨[⟨1, "great"⟩], []⟩ 1).2.1
    ⟨[⟨1, "great"⟩], [⟨1, ⟨"en", "POSITIVE", 9, 0, []⟩⟩]⟩ (by rfl)

end SocialSentiment
